import Mathlib

/-!
Verification of the puzzle-solver repository: the generic search engine
(`DfsSolver.solve`, `BfsSolver.solve` and their helpers `_list_path`,
`_ext_checker` from `src/solver.py`) and the `ExpressionTreePuzzle` variant
(`src/expression_tree_puzzle.py`).

The solvers interact with a puzzle only through the capability contract
(`is_solved`, `extensions`, `fail_fast`, `str`), so they are embedded
generically over a record of those four capabilities.  Python's unbounded
recursion / `while` loops are embedded with an explicit fuel parameter:
`none` means the computation did not finish within the given fuel, and
`some r` means the Python code returns `r`.
-/

/-- Capability contract of a puzzle state, as consumed by the solvers
(`is_solved()`, `extensions()`, `fail_fast()`, and `str(...)` used as the
canonical string).  Modelled from the spec: the `Puzzle` base class itself
(`puzzle.py`) is not part of the sources; §3/§6 of the spec fix this
interface, with structural equality given by equality of canonical
strings. -/
structure POps (α : Type) where
  is_solved : α → Bool
  extensions : α → List α
  fail_fast : α → Bool
  canon : α → String

/-- The `for extension in puzzle.extensions():` loop of `DfsSolver.solve`
(src/solver.py lines 77-84).  `rec` is the recursive call
`self.solve(extension, seen)`; after each iteration the local `seen` is
rebound to `seen.union({str(extension)})` (line 83).  Returns `some []`
when the loop falls through to line 84, `some x` (with `x ≠ []`) when an
extension produced a solution, and `none` when a recursive call did not
terminate within its fuel. -/
def dfsLp {α : Type} (P : POps α) (rec : α → List String → Option (List α)) :
    List α → List String → Option (List α)
  | [], _ => some []
  | e :: rest, seen =>
    if P.canon e ∈ seen ∨ P.fail_fast e = true then
      dfsLp P rec rest (P.canon e :: seen)
    else
      match rec e seen with
      | none => none
      | some [] => dfsLp P rec rest (P.canon e :: seen)
      | some x => some x

/-- `DfsSolver.solve` (src/solver.py lines 52-84) with an explicit fuel
bound on the recursion depth.  The `seen is None` default is modelled by
the caller passing `[]`.  Line 71-72: solved puzzles return `[puzzle]`
before any other check; line 76 marks the root; the loop is `dfsLp`; a
successful extension path `x` is returned as `rslt.extend(x)`,
i.e. `puzzle :: x` (lines 75, 81-82). -/
def DfsSolver.solve {α : Type} (P : POps α) : Nat → α → List String → Option (List α)
  | 0 => fun _ _ => none
  | fuel + 1 => fun p seen =>
    if P.is_solved p = true then some [p]
    else
      match dfsLp P (DfsSolver.solve P fuel) (P.extensions p) (P.canon p :: seen) with
      | none => none
      | some [] => some []
      | some x => some (p :: x)

/-- Tiny concrete puzzle machine used for witnesses: state `0` extends to
state `1`, which is solved; canonical strings are injective. -/
def M2 : POps (Fin 2) where
  is_solved := fun s => s = 1
  extensions := fun s => if s = 0 then [1] else []
  fail_fast := fun _ => false
  canon := fun s => if s = 0 then "a0" else "a1"

/-- Lookup in the `paths` dictionary of `BfsSolver.solve`.  The dictionary
is modelled as an association list where assignment conses a new pair in
front, so lookup finds the most recent assignment — exactly Python's
`paths[str(extension)] = temp` overwrite semantics. -/
def lookupA {α : Type} : List (String × α) → String → Option α
  | [], _ => none
  | (k, v) :: rest, s => if k = s then some v else lookupA rest s

/-- Helper `_list_path` (src/solver.py lines 130-139): walk the `paths`
back-pointers from `extension` until a state equal to `puzzle` is reached
(Python's `!=` on puzzles; modelled from the spec: `puzzle.py` is not in
the sources and §3 defines structural equality as equality of canonical
strings), then reverse.  The list is built here directly in root-to-goal
order.  `none` models the `while` loop never terminating or a missing
`paths` key (a `KeyError`). -/
def list_path {α : Type} (P : POps α) : Nat → α → α → List (String × α) → Option (List α)
  | 0 => fun _ _ _ => none
  | fuel + 1 => fun ext root paths =>
    if P.canon ext = P.canon root then some [ext]
    else
      match lookupA paths (P.canon ext) with
      | none => none
      | some par =>
        match list_path P fuel par root paths with
        | none => none
        | some l => some (l ++ [ext])

/-- Result of one `_ext_checker` call: either the helper returned a path
(`found (some l)`; `found none` models `_list_path` failing to terminate),
or it fell through returning Python `None` with the queue and `paths`
dictionary mutated to `cont q paths`. -/
inductive ExtOut (α : Type) where
  | found : Option (List α) → ExtOut α
  | cont : List α → List (String × α) → ExtOut α

/-- Helper `_ext_checker` (src/solver.py lines 142-154): for each extension
of `temp` whose canonical string is not in `seen`, enqueue it and record
`paths[str(extension)] = temp`; if it is solved, immediately return
`_list_path(extension, puzzle, paths)`.  `lpFuel` is the fuel given to the
`_list_path` walk; the FIFO queue is a list (enqueue appends at the
back). -/
def ext_checker {α : Type} (P : POps α) (temp root : α) (lpFuel : Nat) :
    List α → List α → List (String × α) → List String → ExtOut α
  | [], q, paths, _ => .cont q paths
  | e :: rest, q, paths, seen =>
    if P.canon e ∈ seen then
      ext_checker P temp root lpFuel rest q paths seen
    else
      let q' := q ++ [e]
      let paths' := (P.canon e, temp) :: paths
      if P.is_solved e = true then
        .found (list_path P lpFuel e root paths')
      else
        ext_checker P temp root lpFuel rest q' paths' seen

/-- The `while not next_state.is_empty():` loop of `BfsSolver.solve`
(src/solver.py lines 118-125), one fuel unit per iteration.  A dequeued
state whose canonical string is in `seen` or whose `fail_fast()` holds is
discarded; otherwise its extensions are processed by `_ext_checker` and
afterwards the state is marked seen (line 124). -/
def bfsLoop {α : Type} (P : POps α) (root : α) :
    Nat → List α → List (String × α) → List String → Option (List α)
  | 0 => fun _ _ _ => none
  | fuel + 1 => fun q paths seen =>
    match q with
    | [] => some []
    | temp :: rest =>
      if P.canon temp ∈ seen ∨ P.fail_fast temp = true then
        bfsLoop P root fuel rest paths seen
      else
        match ext_checker P temp root fuel (P.extensions temp) rest paths seen with
        | .found r => r
        | .cont q' paths' => bfsLoop P root fuel q' paths' (P.canon temp :: seen)

/-- `BfsSolver.solve` (src/solver.py lines 92-125): solved puzzles return
`[puzzle]` immediately (lines 111-112); otherwise a FIFO queue seeded with
`puzzle` and an empty `paths` dictionary drive `bfsLoop`.  The
`seen is None` default is modelled by the caller passing `[]`. -/
def BfsSolver.solve {α : Type} (P : POps α) (fuel : Nat) (p : α) (seen : List String) :
    Option (List α) :=
  if P.is_solved p = true then some [p]
  else bfsLoop P p fuel [p] [] seen

/-- Concrete puzzle machine refuting breadth-first optimality: the root `0`
extends to `1` then `2`; `1` re-derives a state with the same canonical
string as `2` (state `3`), overwriting `paths["x"]` before `2` is
dequeued; `2` extends to the solved state `4`.  The shortest solution is
`[0, 2, 4]` but the reconstructed path is `[0, 1, 2, 4]`. -/
def M5 : POps Nat where
  is_solved := fun s => s = 4
  extensions := fun s =>
    if s = 0 then [1, 2] else if s = 1 then [3] else if s = 2 then [4] else []
  fail_fast := fun _ => false
  canon := fun s =>
    if s = 0 then "r" else if s = 1 then "y" else
    if s = 2 then "x" else if s = 3 then "x" else
    if s = 4 then "s" else "z"

/-! ## ExpressionTreePuzzle (src/expression_tree_puzzle.py)

The expression tree itself lives in `expression_tree.py`, which is not
among the sources; the spec (§2, §6) treats it as an opaque evaluator with
`eval`, `copy`, `populate_lookup` and a string rendering.  It is modelled
here from the spec: trees of `+` / `*` operator nodes over integer
literals and named variables, with n-ary children as in the doctests
(`ExprTree('+', [b, 6, 6])`).  Children are a mutually-inductive list so
that all recursions stay structural (hence kernel-computable). -/

mutual
/-- Modelled from the spec: an expression tree node (`expression_tree.py`
is not in the sources).  Operands are integer literals or named
variables; operators `+` and `*` take a list of children. -/
inductive ExprTree : Type where
  | num : Int → ExprTree
  | varn : String → ExprTree
  | plus : ExprTreeList → ExprTree
  | times : ExprTreeList → ExprTree
/-- Children of an `ExprTree` operator node. -/
inductive ExprTreeList : Type where
  | nil : ExprTreeList
  | cons : ExprTree → ExprTreeList → ExprTreeList
end

/-- Value of a variable under the current assignment dictionary (every
variable of the tree is a key of the dictionary by the representation
invariant; a missing key is read as 0). -/
def lookupD (vars : List (String × Int)) (s : String) : Int :=
  match vars with
  | [] => 0
  | (k, v) :: rest => if k = s then v else lookupD rest s

mutual
/-- Modelled from the spec: `ExprTree.eval(lookup)` — evaluate the tree
under a variable assignment, `+` summing and `*` multiplying the
children's values. -/
def ExprTree.eval (vars : List (String × Int)) : ExprTree → Int
  | .num n => n
  | .varn s => lookupD vars s
  | .plus ts => ExprTreeList.sumEval vars ts
  | .times ts => ExprTreeList.prodEval vars ts
/-- Sum of the evaluations of a list of children. -/
def ExprTreeList.sumEval (vars : List (String × Int)) : ExprTreeList → Int
  | .nil => 0
  | .cons t ts => t.eval vars + ExprTreeList.sumEval vars ts
/-- Product of the evaluations of a list of children. -/
def ExprTreeList.prodEval (vars : List (String × Int)) : ExprTreeList → Int
  | .nil => 1
  | .cons t ts => t.eval vars * ExprTreeList.prodEval vars ts
end

/-- Truth of `s` being a key of the assignment dictionary. -/
def hasKey (l : List (String × Int)) (s : String) : Bool :=
  l.any (fun kv => kv.1 == s)

mutual
/-- Modelled from the spec: `ExprTree.populate_lookup` — add one
zero-valued entry per distinct variable name, in traversal order
(Python dictionaries keep insertion order, so a fresh name is appended at
the back). -/
def ExprTree.populate : ExprTree → List (String × Int) → List (String × Int)
  | .num _, acc => acc
  | .varn s, acc => if hasKey acc s then acc else acc ++ [(s, 0)]
  | .plus ts, acc => ExprTreeList.populateL ts acc
  | .times ts, acc => ExprTreeList.populateL ts acc
/-- `populate` folded over a list of children. -/
def ExprTreeList.populateL : ExprTreeList → List (String × Int) → List (String × Int)
  | .nil, acc => acc
  | .cons t ts, acc => ExprTreeList.populateL ts (t.populate acc)
end

mutual
/-- Modelled from the spec: `str(ExprTree)` — infix rendering with
parentheses around operator nodes, as in the doctest
`((a * (b + 6 + 6)) + 5)`. -/
def ExprTree.render : ExprTree → String
  | .num n => toString n
  | .varn s => s
  | .plus ts => "(" ++ ExprTreeList.renderSep " + " ts ++ ")"
  | .times ts => "(" ++ ExprTreeList.renderSep " * " ts ++ ")"
/-- Children renderings joined by an operator separator. -/
def ExprTreeList.renderSep (sep : String) : ExprTreeList → String
  | .nil => ""
  | .cons t .nil => t.render
  | .cons t ts => t.render ++ sep ++ ExprTreeList.renderSep sep ts
end

/-- `ExpressionTreePuzzle` (src/expression_tree_puzzle.py lines 13-51):
an expression tree, a variable dictionary (insertion-ordered association
list, value 0 meaning unassigned) and a target value. -/
structure ExpressionTreePuzzle : Type where
  vars : List (String × Int)
  target : Int
  tree : ExprTree

/-- `ExpressionTreePuzzle.__init__` (lines 35-51): the variable dictionary
is produced by `populate_lookup` on the tree. -/
def mkETP (tree : ExprTree) (target : Int) : ExpressionTreePuzzle :=
  ⟨tree.populate [], target, tree⟩

/-- `ExpressionTreePuzzle.is_solved` (lines 53-76): every variable
assigned (non-zero) and the tree evaluates to the target. -/
def ExpressionTreePuzzle.is_solved (p : ExpressionTreePuzzle) : Bool :=
  (p.tree.eval p.vars == p.target) && p.vars.all (fun kv => !(kv.2 == 0))

/-- Python's `repr` of the variable dictionary, used by `__str__`. -/
def reprDict (l : List (String × Int)) : String :=
  "\x7b" ++
    String.intercalate ", "
      (l.map (fun kv => "\x27" ++ kv.1 ++ "\x27: " ++ toString kv.2)) ++
    "\x7d"

/-- `ExpressionTreePuzzle.__str__` (lines 78-99): the dictionary, a
newline, then `tree = target`. -/
def ExpressionTreePuzzle.str (p : ExpressionTreePuzzle) : String :=
  reprDict p.vars ++ "\n" ++ p.tree.render ++ " = " ++ toString p.target

/-- The digits `range(1, 10)` tried by `extensions` (line 132). -/
def digits : List Int := [1, 2, 3, 4, 5, 6, 7, 8, 9]

/-- Python dictionary assignment `d[k] = v`: replace the value at an
existing key in place, append a fresh key at the back. -/
def updateA : List (String × Int) → String → Int → List (String × Int)
  | [], k, v => [(k, v)]
  | (a, b) :: rest, k, v =>
    if a = k then (k, v) :: rest else (a, b) :: updateA rest k v

/-- `ExpressionTreePuzzle.extensions` (lines 101-136): for each variable
currently 0, in dictionary order, one child per digit 1-9 with only that
variable set.  `_copy` (lines 138-144) deep-copies the tree and the
dictionary, which for these immutable values is the identity. -/
def ExpressionTreePuzzle.extensions (p : ExpressionTreePuzzle) : List ExpressionTreePuzzle :=
  p.vars.flatMap fun kv =>
    if kv.2 = 0 then
      digits.map (fun i => { p with vars := updateA p.vars kv.1 i })
    else []

/-- `ExpressionTreePuzzle.fail_fast` (lines 146-155): true when the target
is non-positive or the current (possibly partial) evaluation already
exceeds it. -/
def ExpressionTreePuzzle.fail_fast (p : ExpressionTreePuzzle) : Bool :=
  if p.target ≤ 0 then true
  else if p.tree.eval p.vars > p.target then true
  else false

/-- The capability record of `ExpressionTreePuzzle` as the solvers see it. -/
def opsE : POps ExpressionTreePuzzle :=
  ⟨ExpressionTreePuzzle.is_solved, ExpressionTreePuzzle.extensions,
   ExpressionTreePuzzle.fail_fast, ExpressionTreePuzzle.str⟩

/-- Number of unassigned (zero-valued) variables. -/
def ExpressionTreePuzzle.zeroCount (p : ExpressionTreePuzzle) : Nat :=
  p.vars.countP (fun kv => kv.2 == 0)

/-! ## Path predicates -/

/-- One extension step up to canonical string: `b`'s canonical string is
the canonical string of some member of `a.extensions()` (the spec's §8
membership-by-canonical-string). -/
def StrStep {α : Type} (P : POps α) (a b : α) : Prop :=
  P.canon b ∈ (P.extensions a).map P.canon

/-- One actual extension step: `b ∈ a.extensions()`. -/
def ActStep {α : Type} (P : POps α) (a b : α) : Prop :=
  b ∈ P.extensions a

/-- The §8 path property of claim C1: the first element has the canonical
string of `p`, consecutive elements are extension steps by canonical
string, and the last element is solved. -/
def ValidC1 {α : Type} (P : POps α) (p : α) (l : List α) : Prop :=
  (∀ h ∈ l.head?, P.canon h = P.canon p) ∧
    List.Chain' (StrStep P) l ∧ (∀ z ∈ l.getLast?, P.is_solved z = true)

/-- A string-level solution for `p` whose non-root elements avoid `seen`. -/
def IsStrSolution {α : Type} (P : POps α) (p : α) (seen : List String) (l : List α) : Prop :=
  l ≠ [] ∧ (∀ h ∈ l.head?, P.canon h = P.canon p) ∧
    List.Chain' (StrStep P) l ∧ (∀ z ∈ l.getLast?, P.is_solved z = true) ∧
    (∀ x ∈ l.tail, P.canon x ∉ seen)

/-- An actual-membership solution path for `p` whose non-root elements
avoid `seen` — the depth-first search's notion of "a solution reachable
without crossing a seen state" (the root itself is never checked against
`seen` by the code). -/
def DfsSol {α : Type} (P : POps α) (p : α) (seen : List String) (l : List α) : Prop :=
  l.head? = some p ∧ List.Chain' (ActStep P) l ∧
    (∀ z ∈ l.getLast?, P.is_solved z = true) ∧ (∀ x ∈ l.tail, P.canon x ∉ seen)

/-- The state `a` admits some (unconditional) solution path. -/
def HasSolution {α : Type} (P : POps α) (a : α) : Prop :=
  ∃ l, l.head? = some a ∧ List.Chain' (ActStep P) l ∧
    (∀ z ∈ l.getLast?, P.is_solved z = true)

/-! ## Breadth-first search: soundness -/

/-- The string `s` is a key of the `paths` dictionary. -/
def Keyed {α : Type} (paths : List (String × α)) (s : String) : Prop :=
  ∃ pr ∈ paths, pr.1 = s

/-- Invariant of the `paths` back-pointer dictionary: every recorded pair
maps the canonical string of an extension of its parent, neither side is
in the caller's `seen0`, and the parent is the root (by canonical string)
or itself has an entry. -/
def PathsOk {α : Type} (P : POps α) (seen0 : List String) (root : α)
    (paths : List (String × α)) : Prop :=
  ∀ pr ∈ paths, pr.1 ∉ seen0 ∧ P.canon pr.2 ∉ seen0 ∧
    pr.1 ∈ (P.extensions pr.2).map P.canon ∧
    (P.canon pr.2 = P.canon root ∨ Keyed paths (P.canon pr.2))

/-- Invariant of the queue: every enqueued state is the root (by canonical
string) or has a `paths` entry. -/
def QOk {α : Type} (P : POps α) (root : α) (paths : List (String × α))
    (q : List α) : Prop :=
  ∀ x ∈ q, P.canon x = P.canon root ∨ Keyed paths (P.canon x)

/-- A successfully reconstructed breadth-first path: starts at the root's
canonical string, proceeds by string-level extension steps, ends in a
solved state, and every element avoids the caller's `seen0`. -/
def GoodPath {α : Type} (P : POps α) (seen0 : List String) (root : α)
    (l : List α) : Prop :=
  l ≠ [] ∧ (∀ h ∈ l.head?, P.canon h = P.canon root) ∧
    List.Chain' (StrStep P) l ∧ (∀ z ∈ l.getLast?, P.is_solved z = true) ∧
    (∀ x ∈ l, P.canon x ∉ seen0)

/-! ## Heap model of the `seen` sets (for the frame claim C10)

Python sets are heap objects; `seen.union({...})` allocates a fresh set
and rebinds the local name, leaving the argument object untouched.  To
state that as a theorem, the solvers are re-embedded with `seen` as a
reference into an explicit store of set objects; the only store
operations the code performs are reads and fresh allocations. -/

/-- Heap of Python set objects (each set modelled by its member list). -/
abbrev Store := List (List String)

/-- Read the set object behind a reference. -/
def readS (σ : Store) (r : Nat) : List String := (σ[r]?).getD []

/-- Allocate a fresh set object (as `set.union` does), returning its
reference and the grown store. -/
def allocS (σ : Store) (v : List String) : Nat × Store := (σ.length, σ ++ [v])

/-- The store `σ'` extends `σ`: it has at least as many objects and
agrees with `σ` on every object allocated in `σ`. -/
def StoreExt (σ σ' : Store) : Prop :=
  σ.length ≤ σ'.length ∧ ∀ i, i < σ.length → σ'[i]? = σ[i]?

/-- Store-passing version of the `DfsSolver.solve` loop: the `seen`
rebinding `seen = seen.union({str(extension)})` (line 83) allocates a new
set; no operation writes to an existing set object. -/
def dfsLpS {α : Type} (P : POps α)
    (rec : α → Nat → Store → Option (List α) × Store) :
    List α → Nat → Store → Option (List α) × Store
  | [], _, σ => (some [], σ)
  | e :: rest, r, σ =>
    if P.canon e ∈ readS σ r ∨ P.fail_fast e = true then
      let a := allocS σ (P.canon e :: readS σ r)
      dfsLpS P rec rest a.1 a.2
    else
      match rec e r σ with
      | (none, σ1) => (none, σ1)
      | (some [], σ1) =>
        let a := allocS σ1 (P.canon e :: readS σ1 r)
        dfsLpS P rec rest a.1 a.2
      | (some x, σ1) => (some x, σ1)

/-- Store-passing version of `DfsSolver.solve` (caller-supplied `seen`
object behind reference `r`): line 76's `seen = seen.union({str(puzzle)})`
allocates a new set for the frame. -/
def DfsSolver.solveS {α : Type} (P : POps α) :
    Nat → α → Nat → Store → Option (List α) × Store
  | 0 => fun _ _ σ => (none, σ)
  | fuel + 1 => fun p r σ =>
    if P.is_solved p = true then (some [p], σ)
    else
      let a := allocS σ (P.canon p :: readS σ r)
      match dfsLpS P (DfsSolver.solveS P fuel) (P.extensions p) a.1 a.2 with
      | (none, σ1) => (none, σ1)
      | (some [], σ1) => (some [], σ1)
      | (some x, σ1) => (some (p :: x), σ1)

/-- Store-passing version of the `BfsSolver.solve` loop: `_ext_checker`
only reads the current `seen` value; line 124's union allocates. -/
def bfsLoopS {α : Type} (P : POps α) (root : α) :
    Nat → List α → List (String × α) → Nat → Store → Option (List α) × Store
  | 0 => fun _ _ _ σ => (none, σ)
  | fuel + 1 => fun q paths r σ =>
    match q with
    | [] => (some [], σ)
    | temp :: rest =>
      if P.canon temp ∈ readS σ r ∨ P.fail_fast temp = true then
        bfsLoopS P root fuel rest paths r σ
      else
        match ext_checker P temp root fuel (P.extensions temp) rest paths (readS σ r) with
        | .found res => (res, σ)
        | .cont q' paths' =>
          let a := allocS σ (P.canon temp :: readS σ r)
          bfsLoopS P root fuel q' paths' a.1 a.2

/-- Store-passing version of `BfsSolver.solve` with a caller-supplied
`seen` object behind reference `r`. -/
def BfsSolver.solveS {α : Type} (P : POps α) (fuel : Nat) (p : α) (r : Nat)
    (σ : Store) : Option (List α) × Store :=
  if P.is_solved p = true then (some [p], σ)
  else bfsLoopS P p fuel [p] [] r σ

/-! ## Mirror of the depth-first loop's attempted extensions (claim C7) -/

/-- The extensions the depth-first loop recurses into ("attempted"
children), replaying the loop's filter and seen-rebinding exactly: a
skipped extension is not attempted; the loop stops after a successful or
fuel-exhausted recursion. -/
def attemptedLp {α : Type} (P : POps α)
    (rec : α → List String → Option (List α)) : List α → List String → List α
  | [], _ => []
  | e :: rest, seen =>
    if P.canon e ∈ seen ∨ P.fail_fast e = true then
      attemptedLp P rec rest (P.canon e :: seen)
    else
      match rec e seen with
      | none => [e]
      | some [] => e :: attemptedLp P rec rest (P.canon e :: seen)
      | some _ => [e]

/-- The children attempted by one `DfsSolver.solve` frame. -/
def attemptedDfs {α : Type} (P : POps α) : Nat → α → List String → List α
  | 0 => fun _ _ => []
  | fuel + 1 => fun p seen =>
    if P.is_solved p = true then []
    else attemptedLp P (DfsSolver.solve P fuel) (P.extensions p) (P.canon p :: seen)

/-- The `seen` value of a depth-first frame after marking the listed
extensions (line 83 repeatedly): the original set extended by exactly
their canonical strings. -/
def seenAfter {α : Type} (P : POps α) (exts : List α) (seen : List String) :
    List String :=
  exts.foldl (fun s e => P.canon e :: s) seen

/-! ## Further concrete machines and puzzles for witnesses -/

/-- One-state solved puzzle whose canonical string is already seen and
whose `fail_fast` lies: used to witness the precedence of the solved
check. -/
def M1 : POps Unit where
  is_solved := fun _ => true
  extensions := fun _ => []
  fail_fast := fun _ => true
  canon := fun _ => "w"

/-- Machine for the C7 counterexample (injective canonical strings, no
solved state): `0 → [1, 2]`, `1 → [3]`, `2 → [3]`, `3` a dead end.  The
exploration of `1` fails after attempting `3`; the ancestor then explores
`2`, which re-attempts `3`. -/
def M7 : POps (Fin 4) where
  is_solved := fun _ => false
  extensions := fun s =>
    if s = 0 then [1, 2] else if s = 1 then [3] else if s = 2 then [3] else []
  fail_fast := fun _ => false
  canon := fun s =>
    if s = 0 then "s0" else if s = 1 then "s1" else if s = 2 then "s2" else "s3"

/-- Solved expression-tree puzzle with non-positive target: the literal
`0` with target `0`. -/
def pXc6 : ExpressionTreePuzzle := mkETP (ExprTree.num 0) 0

/-- Unsolved expression-tree puzzle with non-positive target: a single
variable with target `0`. -/
def pYc6 : ExpressionTreePuzzle := mkETP (ExprTree.varn "a") 0

/-- Two-variable puzzle `a + b = 8` from the doctests. -/
def pW4 : ExpressionTreePuzzle :=
  mkETP (ExprTree.plus (ExprTreeList.cons (ExprTree.varn "a")
    (ExprTreeList.cons (ExprTree.varn "b") ExprTreeList.nil))) 8

/-- The claim C4 property of `extensions`: `9k` children for `k`
unassigned variables; each child only re-assigns one previously-zero
variable to a digit 1-9, keeping the target, the tree, the other
variables and the key order; no children when everything is assigned. -/
def ExtSpec (p : ExpressionTreePuzzle) : Prop :=
  p.extensions.length = 9 * p.zeroCount ∧
  (∀ c ∈ p.extensions, c.target = p.target ∧ c.tree = p.tree ∧
    ∃ v i, 1 ≤ i ∧ i ≤ 9 ∧ hasKey p.vars v = true ∧ lookupD p.vars v = 0 ∧
      c.vars = updateA p.vars v i ∧ lookupD c.vars v = i ∧
      (∀ w, w ≠ v → lookupD c.vars w = lookupD p.vars w) ∧
      c.vars.map Prod.fst = p.vars.map Prod.fst) ∧
  (p.zeroCount = 0 → p.extensions = [])

/-- `getLast?` ignores a cons onto a non-empty list. -/
theorem last?_cons {α : Type} (a : α) (l : List α) (h : l ≠ []) :
    (a :: l).getLast? = l.getLast? := by
  cases l with
  | nil => exact absurd rfl h
  | cons b t => exact List.getLast?_cons_cons

/-! ## Depth-first search: soundness -/

/-- Soundness of the depth-first loop: a non-empty result is a solution
path starting at one of the listed extensions, every element of which
avoids the ambient `seen0` (all filters are taken against supersets of
it). -/
theorem dfsLp_sound {α : Type} (P : POps α)
    (rec : α → List String → Option (List α)) (seen0 : List String)
    (Hrec : ∀ e s l, seen0 ⊆ s → rec e s = some l → l ≠ [] →
      l.head? = some e ∧ List.Chain' (ActStep P) l ∧
        (∀ z ∈ l.getLast?, P.is_solved z = true) ∧ (∀ x ∈ l.tail, P.canon x ∉ s)) :
    ∀ exts seenCur x, seen0 ⊆ seenCur → dfsLp P rec exts seenCur = some x → x ≠ [] →
      ∃ e ∈ exts, x.head? = some e ∧ List.Chain' (ActStep P) x ∧
        (∀ z ∈ x.getLast?, P.is_solved z = true) ∧ (∀ y ∈ x, P.canon y ∉ seen0) := by
  intro exts
  induction exts with
  | nil =>
    intro seenCur x _ hx hne
    simp only [dfsLp] at hx
    cases hx
    exact absurd rfl hne
  | cons e rest ih =>
    intro seenCur x hsub hx hne
    simp only [dfsLp] at hx
    by_cases hskip : P.canon e ∈ seenCur ∨ P.fail_fast e = true
    · rw [if_pos hskip] at hx
      obtain ⟨e', he', hrest⟩ :=
        ih (P.canon e :: seenCur) x (hsub.trans (List.subset_cons_self _ _)) hx hne
      exact ⟨e', List.mem_cons_of_mem _ he', hrest⟩
    · rw [if_neg hskip] at hx
      push_neg at hskip
      cases hrec : rec e seenCur with
      | none => rw [hrec] at hx; cases hx
      | some r =>
        rw [hrec] at hx
        cases r with
        | nil =>
          obtain ⟨e', he', hrest⟩ :=
            ih (P.canon e :: seenCur) x (hsub.trans (List.subset_cons_self _ _)) hx hne
          exact ⟨e', List.mem_cons_of_mem _ he', hrest⟩
        | cons y ys =>
          cases hx
          obtain ⟨hhead, hchain, hlast, htail⟩ :=
            Hrec e seenCur (y :: ys) hsub hrec (by simp)
          refine ⟨e, List.mem_cons_self _ _, hhead, hchain, hlast, ?_⟩
          intro z hz
          have hz' : z = y ∨ z ∈ ys := by simpa using hz
          have hey : y = e := by simpa using hhead
          rcases hz' with rfl | hz'
          · rw [hey]; exact fun hmem => hskip.1 (hsub hmem)
          · exact fun hmem => htail z hz' (hsub hmem)

/-- Soundness of `DfsSolver.solve`: a non-empty result starts at the
puzzle itself, proceeds by actual extension steps, ends solved, and its
non-root elements avoid the caller's `seen`. -/
theorem dfs_sound {α : Type} (P : POps α) :
    ∀ fuel p seen l, DfsSolver.solve P fuel p seen = some l → l ≠ [] →
      DfsSol P p seen l := by
  intro fuel
  induction fuel with
  | zero => intro p seen l h; cases h
  | succ f ih =>
    intro p seen l h hne
    simp only [DfsSolver.solve] at h
    by_cases hsolved : P.is_solved p = true
    · rw [if_pos hsolved] at h
      cases h
      exact ⟨rfl, List.chain'_singleton p, by simpa using hsolved, by simp⟩
    · rw [if_neg hsolved] at h
      cases hlp : dfsLp P (DfsSolver.solve P f) (P.extensions p) (P.canon p :: seen) with
      | none => rw [hlp] at h; cases h
      | some r =>
        rw [hlp] at h
        cases r with
        | nil => cases h; exact absurd rfl hne
        | cons y ys =>
          cases h
          obtain ⟨e, hmem, hhead, hchain, hlast, havoid⟩ :=
            dfsLp_sound P (DfsSolver.solve P f) seen
              (fun e s l hsub hrec hne' => ih e s l hrec hne')
              (P.extensions p) (P.canon p :: seen) (y :: ys)
              (List.subset_cons_self _ _) hlp (by simp)
          refine ⟨rfl, ?_, ?_, ?_⟩
          · rw [List.chain'_cons']
            refine ⟨?_, hchain⟩
            intro h hh
            have he : e = h := by rw [hhead] at hh; simpa using hh
            rw [← he]
            exact hmem
          · rw [last?_cons p (y :: ys) (by simp)]
            exact hlast
          · intro z hz
            exact havoid z (by simpa using hz)

/-! ## Breadth-first search soundness lemmas -/

theorem lookupA_mem {α : Type} :
    ∀ (paths : List (String × α)) (s : String) (v : α),
      lookupA paths s = some v → (s, v) ∈ paths := by
  intro paths
  induction paths with
  | nil => intro s v h; cases h
  | cons pr rest ih =>
    intro s v h
    obtain ⟨k, w⟩ := pr
    simp only [lookupA] at h
    by_cases hk : k = s
    · rw [if_pos hk] at h
      cases h
      rw [hk]
      exact List.mem_cons_self _ _
    · rw [if_neg hk] at h
      exact List.mem_cons_of_mem _ (ih s v h)

/-- Walking the back-pointers from a state not in `seen0`, over a
dictionary satisfying `PathsOk`, yields a good path ending at that state
(without the solvedness of the endpoint, which the caller supplies). -/
theorem list_path_ok {α : Type} (P : POps α) (seen0 : List String) (root : α)
    (paths : List (String × α)) (hp : PathsOk P seen0 root paths) :
    ∀ fuel ext l, P.canon ext ∉ seen0 → list_path P fuel ext root paths = some l →
      l ≠ [] ∧ (∀ h ∈ l.head?, P.canon h = P.canon root) ∧
        (∀ z ∈ l.getLast?, z = ext) ∧ List.Chain' (StrStep P) l ∧
        (∀ x ∈ l, P.canon x ∉ seen0) := by
  intro fuel
  induction fuel with
  | zero => intro ext l _ h; cases h
  | succ f ih =>
    intro ext l hext h
    simp only [list_path] at h
    by_cases hroot : P.canon ext = P.canon root
    · rw [if_pos hroot] at h
      cases h
      refine ⟨by simp, by simpa using hroot, by simp, List.chain'_singleton ext, ?_⟩
      intro x hx
      rw [List.mem_singleton] at hx
      rw [hx]
      exact hext
    · rw [if_neg hroot] at h
      cases hlk : lookupA paths (P.canon ext) with
      | none => rw [hlk] at h; cases h
      | some par =>
        rw [hlk] at h
        have h' : (match list_path P f par root paths with
            | none => none
            | some l => some (l ++ [ext])) = some l := h
        clear h
        cases hrec : list_path P f par root paths with
        | none => rw [hrec] at h'; cases h'
        | some l' =>
          rw [hrec] at h'
          cases h'
          have hpair := hp _ (lookupA_mem paths (P.canon ext) par hlk)
          obtain ⟨-, hparns, hstep, -⟩ := hpair
          obtain ⟨hne', hhead', hlast', hchain', havoid'⟩ := ih par l' hparns hrec
          obtain ⟨a, t, rfl⟩ := List.exists_cons_of_ne_nil hne'
          refine ⟨by simp, ?_, ?_, ?_, ?_⟩
          · intro h hh
            simp only [List.cons_append, List.head?_cons, Option.mem_some_iff] at hh
            exact hh ▸ hhead' a rfl
          · intro z hz
            rw [List.getLast?_concat] at hz
            exact (by simpa using hz : ext = z).symm
          · rw [List.chain'_append]
            refine ⟨hchain', List.chain'_singleton ext, ?_⟩
            intro x hx y hy
            simp only [List.head?_cons, Option.mem_some_iff] at hy
            have hxpar : x = par := hlast' x hx
            rw [hxpar, ← hy]
            exact hstep
          · intro x hx
            rcases List.mem_append.mp hx with hx' | hx'
            · exact havoid' x hx'
            · rw [List.mem_singleton] at hx'
              rw [hx']
              exact hext

/-- Invariant preservation and found-path soundness of `_ext_checker`. -/
theorem ext_checker_ok {α : Type} (P : POps α) (temp root : α) (lpFuel : Nat)
    (seen0 : List String) :
    ∀ exts q paths seen,
      (∀ e ∈ exts, e ∈ P.extensions temp) →
      PathsOk P seen0 root paths → QOk P root paths q → seen0 ⊆ seen →
      P.canon temp ∉ seen0 →
      (P.canon temp = P.canon root ∨ Keyed paths (P.canon temp)) →
      (∀ q' paths', ext_checker P temp root lpFuel exts q paths seen = .cont q' paths' →
        PathsOk P seen0 root paths' ∧ QOk P root paths' q') ∧
      (∀ l, ext_checker P temp root lpFuel exts q paths seen = .found (some l) →
        GoodPath P seen0 root l) := by
  intro exts
  induction exts with
  | nil =>
    intro q paths seen _ hpok hqok _ _ _
    constructor
    · intro q' paths' h
      simp only [ext_checker] at h
      cases h
      exact ⟨hpok, hqok⟩
    · intro l h
      simp only [ext_checker] at h
      cases h
  | cons e rest ih =>
    intro q paths seen hexts hpok hqok hsub htns htkey
    have hins : ∀ hens : P.canon e ∉ seen,
        PathsOk P seen0 root ((P.canon e, temp) :: paths) := by
      intro hens
      intro pr hpr
      rcases List.mem_cons.mp hpr with rfl | hpr'
      · refine ⟨fun hmem => hens (hsub hmem), htns, ?_, ?_⟩
        · exact List.mem_map_of_mem P.canon (hexts e (List.mem_cons_self _ _))
        · rcases htkey with h | ⟨pr', hpr', hk⟩
          · exact Or.inl h
          · exact Or.inr ⟨pr', List.mem_cons_of_mem _ hpr', hk⟩
      · obtain ⟨h1, h2, h3, h4⟩ := hpok pr hpr'
        refine ⟨h1, h2, h3, ?_⟩
        rcases h4 with h | ⟨pr', hpr'', hk⟩
        · exact Or.inl h
        · exact Or.inr ⟨pr', List.mem_cons_of_mem _ hpr'', hk⟩
    simp only [ext_checker]
    by_cases hseen : P.canon e ∈ seen
    · rw [if_pos hseen]
      exact ih q paths seen (fun e' he' => hexts e' (List.mem_cons_of_mem _ he'))
        hpok hqok hsub htns htkey
    · rw [if_neg hseen]
      have hpok' := hins hseen
      have hqok' : QOk P root ((P.canon e, temp) :: paths) (q ++ [e]) := by
        intro x hx
        rcases List.mem_append.mp hx with hx' | hx'
        · rcases hqok x hx' with h | ⟨pr, hpr, hk⟩
          · exact Or.inl h
          · exact Or.inr ⟨pr, List.mem_cons_of_mem _ hpr, hk⟩
        · rw [List.mem_singleton] at hx'
          exact Or.inr ⟨(P.canon e, temp), hx' ▸ List.mem_cons_self _ _, by rw [hx']⟩
      have hkey' : P.canon temp = P.canon root ∨
          Keyed ((P.canon e, temp) :: paths) (P.canon temp) := by
        rcases htkey with h | ⟨pr, hpr, hk⟩
        · exact Or.inl h
        · exact Or.inr ⟨pr, List.mem_cons_of_mem _ hpr, hk⟩
      by_cases hsolved : P.is_solved e = true
      · rw [if_pos hsolved]
        constructor
        · intro q' paths' h
          cases h
        · intro l h
          have h' : list_path P lpFuel e root ((P.canon e, temp) :: paths) = some l := by
            injection h
          have hens0 : P.canon e ∉ seen0 := fun hmem => hseen (hsub hmem)
          obtain ⟨hne, hhead, hlast, hchain, havoid⟩ :=
            list_path_ok P seen0 root _ hpok' lpFuel e l hens0 h'
          refine ⟨hne, hhead, hchain, ?_, havoid⟩
          intro z hz
          rw [hlast z hz]
          exact hsolved
      · rw [if_neg hsolved]
        exact ih (q ++ [e]) ((P.canon e, temp) :: paths) seen
          (fun e' he' => hexts e' (List.mem_cons_of_mem _ he'))
          hpok' hqok' hsub htns hkey'

/-- Soundness of the breadth-first loop: a non-empty result is a good
path. -/
theorem bfsLoop_sound {α : Type} (P : POps α) (root : α) (seen0 : List String) :
    ∀ fuel q paths seen l, seen0 ⊆ seen → PathsOk P seen0 root paths →
      QOk P root paths q → bfsLoop P root fuel q paths seen = some l → l ≠ [] →
      GoodPath P seen0 root l := by
  intro fuel
  induction fuel with
  | zero => intro q paths seen l _ _ _ h; cases h
  | succ f ih =>
    intro q paths seen l hsub hpok hqok h hne
    cases q with
    | nil => simp only [bfsLoop] at h; cases h; exact absurd rfl hne
    | cons temp rest =>
      simp only [bfsLoop] at h
      have h' : (if P.canon temp ∈ seen ∨ P.fail_fast temp = true then
          bfsLoop P root f rest paths seen
        else
          match ext_checker P temp root f (P.extensions temp) rest paths seen with
          | ExtOut.found r => r
          | ExtOut.cont q' paths' =>
            bfsLoop P root f q' paths' (P.canon temp :: seen)) = some l := h
      clear h
      by_cases hskip : P.canon temp ∈ seen ∨ P.fail_fast temp = true
      · rw [if_pos hskip] at h'
        exact ih rest paths seen l hsub hpok
          (fun x hx => hqok x (List.mem_cons_of_mem _ hx)) h' hne
      · rw [if_neg hskip] at h'
        push_neg at hskip
        have htns : P.canon temp ∉ seen0 := fun hmem => hskip.1 (hsub hmem)
        have hok := ext_checker_ok P temp root f seen0 (P.extensions temp) rest paths seen
          (fun _ he => he) hpok (fun x hx => hqok x (List.mem_cons_of_mem _ hx))
          hsub htns (hqok temp (List.mem_cons_self _ _))
        cases hec : ext_checker P temp root f (P.extensions temp) rest paths seen with
        | found r =>
          rw [hec] at h'
          cases r with
          | none => cases h'
          | some l' =>
            cases h'
            exact hok.2 l hec
        | cont q' paths' =>
          rw [hec] at h'
          obtain ⟨hpok', hqok'⟩ := hok.1 q' paths' hec
          exact ih q' paths' (P.canon temp :: seen) l
            (hsub.trans (List.subset_cons_self _ _)) hpok' hqok' h' hne

/-- Soundness of `BfsSolver.solve`: a non-empty result starts at the
puzzle's canonical string, proceeds by string-level extension steps, ends
solved, and every element avoids the caller's `seen` (except that a
solved root is returned unconditionally, where the tail is empty). -/
theorem bfs_sound {α : Type} (P : POps α) :
    ∀ fuel p seen l, BfsSolver.solve P fuel p seen = some l → l ≠ [] →
      IsStrSolution P p seen l := by
  intro fuel p seen l h hne
  simp only [BfsSolver.solve] at h
  by_cases hsolved : P.is_solved p = true
  · rw [if_pos hsolved] at h
    cases h
    exact ⟨by simp, by simp, List.chain'_singleton p, by simpa using hsolved, by simp⟩
  · rw [if_neg hsolved] at h
    have hqok : QOk P p ([] : List (String × α)) [p] := by
      intro x hx
      rw [List.mem_singleton] at hx
      exact Or.inl (by rw [hx])
    obtain ⟨hne', hhead, hchain, hlast, havoid⟩ :=
      bfsLoop_sound P p seen fuel [p] [] seen l (fun _ hx => hx)
        (fun pr hpr => absurd hpr (List.not_mem_nil pr)) hqok h hne
    refine ⟨hne', hhead, hchain, hlast, ?_⟩
    intro x hx
    exact havoid x (List.mem_of_mem_tail hx)

/-! ## Depth-first search: completeness -/

/-- `getLast?` of an append with a non-empty right part. -/
theorem last?_append {α : Type} (l₁ l₂ : List α) (h : l₂ ≠ []) :
    (l₁ ++ l₂).getLast? = l₂.getLast? := by
  induction l₁ with
  | nil => rfl
  | cons a t ihl =>
    rw [List.cons_append, last?_cons a (t ++ l₂) (by simp [h]), ihl]

/-- A list with `head? = some a` is a cons. -/
theorem head?_decomp {α : Type} {l : List α} {a : α} (h : l.head? = some a) :
    ∃ t, l = a :: t := by
  cases l with
  | nil => cases h
  | cons b t =>
    have hb : b = a := by simpa using h
    exact ⟨t, by rw [hb]⟩

/-- Completeness of the depth-first loop: when the loop falls through
(`some []`), no extension in the list that is not yet seen can have a
solution avoiding the loop's current `seen` — assuming canonical strings
are injective (the spec's §3 uniqueness invariant) and `fail_fast` is
sound (§3: it proves unsolvability).  `Hrec` is the completeness of the
recursive calls. -/
theorem dfsLp_complete {α : Type} (P : POps α)
    (hInj : ∀ a b, P.canon a = P.canon b → a = b)
    (Hff : ∀ a, P.fail_fast a = true → ¬HasSolution P a)
    (rec : α → List String → Option (List α))
    (Hrec : ∀ e s, rec e s = some [] → ∀ l, DfsSol P e s l → False) :
    ∀ exts seenCur, dfsLp P rec exts seenCur = some [] →
      ∀ e, e ∈ exts → P.canon e ∉ seenCur → ∀ l, DfsSol P e seenCur l → False := by
  intro exts
  induction exts with
  | nil => intro seenCur _ e he; exact absurd he (List.not_mem_nil e)
  | cons e0 rest ih =>
    intro seenCur h
    simp only [dfsLp] at h
    have step : dfsLp P rec rest (P.canon e0 :: seenCur) = some [] →
        (∀ l0, DfsSol P e0 seenCur l0 → P.canon e0 ∉ seenCur → False) →
        ∀ e, e ∈ e0 :: rest → P.canon e ∉ seenCur →
          ∀ l, DfsSol P e seenCur l → False := by
      intro hrest kill e he hens l hsol
      by_cases hce : P.canon e = P.canon e0
      · have hee : e = e0 := hInj _ _ hce
        subst hee
        exact kill l hsol hens
      · have herest : e ∈ rest := by
          rcases List.mem_cons.mp he with rfl | h'
          · exact absurd rfl hce
          · exact h'
        obtain ⟨hhead, hchain, hlast, havoid⟩ := hsol
        by_cases hcross : ∃ x ∈ l.tail, P.canon x = P.canon e0
        · obtain ⟨x, hx, hcx⟩ := hcross
          have hxe : x = e0 := hInj _ _ hcx
          rw [hxe] at hx
          obtain ⟨tl, rfl⟩ := head?_decomp hhead
          have hxtl : e0 ∈ tl := by simpa using hx
          obtain ⟨t1, t2, rfl⟩ := List.append_of_mem hxtl
          have hsfx : (e0 :: t2) <:+ e :: (t1 ++ e0 :: t2) :=
            (List.suffix_append t1 (e0 :: t2)).trans (List.suffix_cons e _)
          have hlasteq : (e :: (t1 ++ e0 :: t2)).getLast? = (e0 :: t2).getLast? := by
            rw [last?_cons e _ (by simp), last?_append t1 (e0 :: t2) (by simp)]
          refine kill (e0 :: t2) ⟨rfl, hchain.suffix hsfx, ?_, ?_⟩ (havoid e0 hx)
          · intro z hz
            exact hlast z (by rw [hlasteq]; exact hz)
          · intro y hy
            exact havoid y (by simp [List.mem_append]; right; right; simpa using hy)
        · push_neg at hcross
          refine ih (P.canon e0 :: seenCur) hrest e herest ?_ l
            ⟨hhead, hchain, hlast, ?_⟩
          · intro hmem
            rcases List.mem_cons.mp hmem with h' | h'
            · exact hce h'
            · exact hens h'
          · intro x hx hmem
            rcases List.mem_cons.mp hmem with h' | h'
            · exact hcross x hx h'
            · exact havoid x hx h'
    by_cases hskip : P.canon e0 ∈ seenCur ∨ P.fail_fast e0 = true
    · rw [if_pos hskip] at h
      refine step h ?_
      intro l0 hsol0 hens0
      rcases hskip with hmem | hff
      · exact hens0 hmem
      · exact Hff e0 hff ⟨l0, hsol0.1, hsol0.2.1, hsol0.2.2.1⟩
    · rw [if_neg hskip] at h
      cases hrec : rec e0 seenCur with
      | none => rw [hrec] at h; cases h
      | some r =>
        rw [hrec] at h
        cases r with
        | nil =>
          refine step h ?_
          intro l0 hsol0 _
          exact Hrec e0 seenCur hrec l0 hsol0
        | cons y ys => simp at h

/-- Completeness of `DfsSolver.solve`: a terminating run that returns the
empty path means no solution avoiding `seen` exists, under the canonical
string uniqueness invariant and soundness of `fail_fast`. -/
theorem dfs_complete {α : Type} (P : POps α)
    (hInj : ∀ a b, P.canon a = P.canon b → a = b)
    (Hff : ∀ a, P.fail_fast a = true → ¬HasSolution P a) :
    ∀ fuel p seen, DfsSolver.solve P fuel p seen = some [] →
      ∀ l, DfsSol P p seen l → False := by
  intro fuel
  induction fuel with
  | zero => intro p seen h; cases h
  | succ f ih =>
    intro p seen h
    by_cases hsolved : P.is_solved p = true
    · simp only [DfsSolver.solve, if_pos hsolved] at h
      simp at h
    · have hloop : dfsLp P (DfsSolver.solve P f) (P.extensions p)
          (P.canon p :: seen) = some [] := by
        simp only [DfsSolver.solve] at h
        rw [if_neg hsolved] at h
        cases hlp : dfsLp P (DfsSolver.solve P f) (P.extensions p)
            (P.canon p :: seen) with
        | none => rw [hlp] at h; cases h
        | some r =>
          rw [hlp] at h
          cases r with
          | nil => rfl
          | cons y ys => simp at h
      have H : ∀ n l, l.length ≤ n → DfsSol P p seen l → False := by
        intro n
        induction n with
        | zero =>
          intro l hlen hsol
          obtain ⟨tl, rfl⟩ := head?_decomp hsol.1
          simp at hlen
        | succ n ihn =>
          intro l hlen hsol
          obtain ⟨hhead, hchain, hlast, havoid⟩ := hsol
          obtain ⟨tl, rfl⟩ := head?_decomp hhead
          cases tl with
          | nil =>
            exact hsolved (hlast p (by simp))
          | cons s1 tl' =>
            by_cases hpin : ∃ x ∈ s1 :: tl', P.canon x = P.canon p
            · obtain ⟨x, hx, hcx⟩ := hpin
              have hxp : x = p := hInj _ _ hcx
              rw [hxp] at hx
              obtain ⟨t1, t2, heq⟩ := List.append_of_mem hx
              rw [heq] at hchain hlast havoid hlen
              have hsfx : (p :: t2) <:+ p :: (t1 ++ p :: t2) :=
                (List.suffix_append t1 (p :: t2)).trans (List.suffix_cons p _)
              have hlasteq : (p :: (t1 ++ p :: t2)).getLast? = (p :: t2).getLast? := by
                rw [last?_cons p _ (by simp), last?_append t1 (p :: t2) (by simp)]
              refine ihn (p :: t2) ?_ ⟨rfl, hchain.suffix hsfx, ?_, ?_⟩
              · simp only [List.length_cons, List.length_append] at hlen ⊢
                omega
              · intro z hz
                exact hlast z (by rw [hlasteq]; exact hz)
              · intro y hy
                exact havoid y (by simp [List.mem_append]; right; right; simpa using hy)
            · push_neg at hpin
              have hstep : ActStep P p s1 := (List.chain'_cons.mp hchain).1
              refine dfsLp_complete P hInj Hff (DfsSolver.solve P f)
                (fun e s hrec l' hsol' => ih e s hrec l' hsol')
                (P.extensions p) (P.canon p :: seen) hloop s1 hstep ?_
                (s1 :: tl') ⟨rfl, (List.chain'_cons.mp hchain).2, ?_, ?_⟩
              · intro hmem
                rcases List.mem_cons.mp hmem with h' | h'
                · exact hpin s1 (List.mem_cons_self _ _) h'
                · exact havoid s1 (List.mem_cons_self _ _) h'
              · intro z hz
                exact hlast z (by rw [last?_cons p _ (by simp)]; exact hz)
              · intro x hx hmem
                rcases List.mem_cons.mp hmem with h' | h'
                · exact hpin x (List.mem_cons_of_mem _ hx) h'
                · exact havoid x (List.mem_cons_of_mem _ hx) h'
      intro l hsol
      exact H l.length l le_rfl hsol

/-! ## Frame lemmas for the store model -/

theorem storeExt_refl (σ : Store) : StoreExt σ σ :=
  ⟨le_refl _, fun _ _ => rfl⟩

theorem storeExt_trans {σ1 σ2 σ3 : Store} (h1 : StoreExt σ1 σ2)
    (h2 : StoreExt σ2 σ3) : StoreExt σ1 σ3 := by
  refine ⟨h1.1.trans h2.1, fun i hi => ?_⟩
  rw [h2.2 i (lt_of_lt_of_le hi h1.1), h1.2 i hi]

theorem storeExt_alloc (σ : Store) (v : List String) :
    StoreExt σ (allocS σ v).2 := by
  refine ⟨by simp [allocS], fun i hi => ?_⟩
  simp only [allocS]
  exact List.getElem?_append_left hi

/-- The depth-first loop only allocates: the output store extends the
input store. -/
theorem dfsLpS_frame {α : Type} (P : POps α)
    (rec : α → Nat → Store → Option (List α) × Store)
    (Hrec : ∀ e r' σ', StoreExt σ' (rec e r' σ').2) :
    ∀ exts r σ, StoreExt σ (dfsLpS P rec exts r σ).2 := by
  intro exts
  induction exts with
  | nil => intro r σ; exact storeExt_refl σ
  | cons e rest ih =>
    intro r σ
    simp only [dfsLpS]
    by_cases hskip : P.canon e ∈ readS σ r ∨ P.fail_fast e = true
    · rw [if_pos hskip]
      exact storeExt_trans (storeExt_alloc σ _) (ih _ _)
    · rw [if_neg hskip]
      rcases hr : rec e r σ with ⟨res, σ1⟩
      have hext1 : StoreExt σ σ1 := by
        have := Hrec e r σ
        rw [hr] at this
        exact this
      cases res with
      | none => exact hext1
      | some x =>
        cases x with
        | nil => exact storeExt_trans hext1 (storeExt_trans (storeExt_alloc σ1 _) (ih _ _))
        | cons y ys => exact hext1

/-- `DfsSolver.solve` only allocates set objects, never mutates one. -/
theorem solveS_dfs_frame {α : Type} (P : POps α) :
    ∀ fuel p r σ, StoreExt σ (DfsSolver.solveS P fuel p r σ).2 := by
  intro fuel
  induction fuel with
  | zero => intro p r σ; exact storeExt_refl σ
  | succ f ih =>
    intro p r σ
    simp only [DfsSolver.solveS]
    by_cases hsolved : P.is_solved p = true
    · rw [if_pos hsolved]
      exact storeExt_refl σ
    · rw [if_neg hsolved]
      have hloop := dfsLpS_frame P (DfsSolver.solveS P f) (fun e r' σ' => ih e r' σ')
        (P.extensions p) (allocS σ (P.canon p :: readS σ r)).1
        (allocS σ (P.canon p :: readS σ r)).2
      rcases hr : dfsLpS P (DfsSolver.solveS P f) (P.extensions p)
          (allocS σ (P.canon p :: readS σ r)).1
          (allocS σ (P.canon p :: readS σ r)).2 with ⟨res, σ1⟩
      rw [hr] at hloop
      have hext1 : StoreExt σ σ1 := storeExt_trans (storeExt_alloc σ _) hloop
      cases res with
      | none => exact hext1
      | some x =>
        cases x with
        | nil => exact hext1
        | cons y ys => exact hext1

/-- The breadth-first loop only allocates. -/
theorem bfsLoopS_frame {α : Type} (P : POps α) (root : α) :
    ∀ fuel q paths r σ, StoreExt σ (bfsLoopS P root fuel q paths r σ).2 := by
  intro fuel
  induction fuel with
  | zero => intro q paths r σ; exact storeExt_refl σ
  | succ f ih =>
    intro q paths r σ
    cases q with
    | nil => exact storeExt_refl σ
    | cons temp rest =>
      simp only [bfsLoopS]
      by_cases hskip : P.canon temp ∈ readS σ r ∨ P.fail_fast temp = true
      · rw [if_pos hskip]
        exact ih rest paths r σ
      · rw [if_neg hskip]
        cases ext_checker P temp root f (P.extensions temp) rest paths (readS σ r) with
        | found res => exact storeExt_refl σ
        | cont q' paths' =>
          exact storeExt_trans (storeExt_alloc σ _) (ih q' paths' _ _)

/-- `BfsSolver.solve` only allocates set objects, never mutates one. -/
theorem solveS_bfs_frame {α : Type} (P : POps α) (fuel : Nat) (p : α) (r : Nat)
    (σ : Store) : StoreExt σ (BfsSolver.solveS P fuel p r σ).2 := by
  simp only [BfsSolver.solveS]
  by_cases hsolved : P.is_solved p = true
  · rw [if_pos hsolved]
    exact storeExt_refl σ
  · rw [if_neg hsolved]
    exact bfsLoopS_frame P p fuel [p] [] r σ

/-! ## Claim C10: the caller's seen set is never mutated -/

/-- Claim C10: for every puzzle and caller-supplied `seen` set, both
`DfsSolver.solve` and `BfsSolver.solve` leave the caller's `seen` set
object unchanged: all markings are made on fresh sets produced by
`union`, never by mutating the argument. -/
theorem solvers_preserve_seen {α : Type} (P : POps α) (fuel : Nat) (p : α)
    (r : Nat) (σ : Store) (h : r < σ.length) :
    readS (DfsSolver.solveS P fuel p r σ).2 r = readS σ r ∧
    readS (BfsSolver.solveS P fuel p r σ).2 r = readS σ r := by
  constructor
  · have hp := (solveS_dfs_frame P fuel p r σ).2 r h
    simp only [readS, hp]
  · have hp := (solveS_bfs_frame P fuel p r σ).2 r h
    simp only [readS, hp]

theorem solvers_preserve_seen_witness :
    readS (DfsSolver.solveS M2 3 0 0 [["a9"]]).2 0 = readS [["a9"]] 0 ∧
    readS (BfsSolver.solveS M2 3 0 0 [["a9"]]).2 0 = readS [["a9"]] 0 :=
  solvers_preserve_seen M2 3 0 0 [["a9"]] (by decide)

/-! ## Claim C7: visibility of the failed subtree's seen markings -/

/-- Claim C7 (amended): the `seen` set a depth-first frame passes to its
`j`-th remaining recursion is exactly the frame's entry `seen` extended by
the canonical strings of the first `j` direct extensions — independently
of anything the earlier (failed or skipped) recursive calls explored:
grandchild markings stay local to the failed frame. -/
theorem dfs_loop_marks_only_direct_children {α : Type} (P : POps α)
    (rec : α → List String → Option (List α)) :
    ∀ (j : Nat) (exts : List α) (seen : List String),
      (∀ (i : Nat) (e : α), i < j → exts[i]? = some e →
        (P.canon e ∈ seenAfter P (exts.take i) seen ∨ P.fail_fast e = true) ∨
          rec e (seenAfter P (exts.take i) seen) = some []) →
      dfsLp P rec exts seen =
        dfsLp P rec (exts.drop j) (seenAfter P (exts.take j) seen) := by
  intro j
  induction j with
  | zero => intro exts seen _; rfl
  | succ j ihj =>
    intro exts seen hcond
    cases exts with
    | nil => rfl
    | cons e rest =>
      have h0 : (P.canon e ∈ seen ∨ P.fail_fast e = true) ∨
          rec e seen = some [] := hcond 0 e (Nat.succ_pos j) (by simp)
      have hstep : dfsLp P rec (e :: rest) seen =
          dfsLp P rec rest (P.canon e :: seen) := by
        simp only [dfsLp]
        rcases h0 with hskip | hfail
        · rw [if_pos hskip]
        · by_cases hskip2 : P.canon e ∈ seen ∨ P.fail_fast e = true
          · rw [if_pos hskip2]
          · rw [if_neg hskip2, hfail]
      rw [hstep]
      exact ihj rest (P.canon e :: seen)
        (fun i e' hi hget => hcond (i + 1) e' (Nat.succ_lt_succ hi) (by simpa using hget))

theorem dfs_loop_marks_only_direct_children_witness :
    dfsLp M7 (DfsSolver.solve M7 8) [1, 2] ["s0"] =
      dfsLp M7 (DfsSolver.solve M7 8) [2] ["s1", "s0"] := by
  have h := dfs_loop_marks_only_direct_children M7 (DfsSolver.solve M7 8) 1
    [1, 2] ["s0"] ?_
  · exact h
  · intro i e hi hget
    have hi0 : i = 0 := by omega
    subst hi0
    have he : (1 : Fin 4) = e := by simpa using hget
    rw [← he]
    exact Or.inr rfl

/-- Counterexample to claim C7 as stated: in `M7`, exploring extension `1`
of the root (with the seen set `["s0"]` the root's frame passes) fails
after attempting child `3`; yet the ancestor's subsequent recursion into
the sibling `2` receives only `["s1", "s0"]` — which does not contain
`3`'s canonical string — and re-attempts `3` instead of skipping it. -/
theorem dfs_reattempts_failed_grandchild :
    DfsSolver.solve M7 9 1 ["s0"] = some [] ∧
    attemptedDfs M7 9 1 ["s0"] = [3] ∧
    M7.canon 3 ∉ ["s1", "s0"] ∧
    attemptedDfs M7 9 2 ["s1", "s0"] = [3] ∧
    DfsSolver.solve M7 10 0 [] = some [] :=
  ⟨rfl, rfl, by decide, rfl, rfl⟩

/-! ## Claim C1: returned paths are valid solution paths -/

/-- Claim C1: for every puzzle and seen set, a non-empty list returned by
either solver starts at (the canonical string of) the puzzle, ends in a
solved state, and each consecutive pair is an extension step by canonical
string. -/
theorem solve_path_valid {α : Type} (P : POps α) (fuel : Nat) (p : α)
    (seen : List String) (l : List α) :
    (DfsSolver.solve P fuel p seen = some l → l ≠ [] → ValidC1 P p l) ∧
    (BfsSolver.solve P fuel p seen = some l → l ≠ [] → ValidC1 P p l) := by
  constructor
  · intro h hne
    obtain ⟨hhead, hchain, hlast, -⟩ := dfs_sound P fuel p seen l h hne
    refine ⟨?_, ?_, hlast⟩
    · intro x hx
      rw [hhead] at hx
      have hpx : p = x := by simpa using hx
      rw [← hpx]
    · exact hchain.imp (fun a b hab => List.mem_map_of_mem P.canon hab)
  · intro h hne
    obtain ⟨-, hhead, hchain, hlast, -⟩ := bfs_sound P fuel p seen l h hne
    exact ⟨hhead, hchain, hlast⟩

theorem solve_path_valid_witness : ValidC1 M2 (0 : Fin 2) [0, 1] :=
  (solve_path_valid M2 3 0 [] [0, 1]).1 rfl (by simp)

/-! ## Claim C2: breadth-first optimality -/

/-- Helper: in `M5` only state `0` renders as `"r"`. -/
theorem M5_canon_r : ∀ a : Nat, M5.canon a = "r" → a = 0 := by
  intro a h
  simp only [M5] at h
  split_ifs at h with h0 h1 h2 h3 h4
  · exact h0
  all_goals exact absurd h (by decide)

/-- Helper: in `M5` only state `4` is solved. -/
theorem M5_solved_eq : ∀ a : Nat, M5.is_solved a = true → a = 4 := by
  intro a h
  exact of_decide_eq_true h

/-- Helper: every solution of `M5` from the root takes at least 2
extension steps (3 states). -/
theorem M5_min_three : ∀ l, IsStrSolution M5 0 [] l → 3 ≤ l.length := by
  intro l hl
  obtain ⟨hne, hhead, hchain, hlast, -⟩ := hl
  obtain ⟨a, t, rfl⟩ := List.exists_cons_of_ne_nil hne
  have ha : a = 0 := M5_canon_r a (by simpa using hhead a (by simp))
  subst ha
  cases t with
  | nil =>
    have h4 := M5_solved_eq 0 (hlast 0 (by simp))
    exact absurd h4 (by decide)
  | cons b t2 =>
    cases t2 with
    | nil =>
      have hb : b = 4 := M5_solved_eq b (hlast b (by simp))
      subst hb
      have hstep : StrStep M5 0 4 := (List.chain'_cons.mp hchain).1
      exact absurd hstep (by simp [StrStep, M5])
    | cons c t3 =>
      simp only [List.length_cons]
      omega

/-- Counterexample to claim C2: `M5` is solvable from the root in exactly
2 extension steps (no solution is shorter), yet `BfsSolver.solve` returns
a path of 4 states (3 steps) instead of `2 + 1 = 3` states, because the
recorded parent of the queued state with canonical string `"x"` is
overwritten by a later parent before it is dequeued. -/
theorem bfs_not_shortest_counterexample :
    IsStrSolution M5 0 [] [0, 2, 4] ∧ ([0, 2, 4] : List Nat).length = 2 + 1 ∧
    (∀ l, IsStrSolution M5 0 [] l → 2 + 1 ≤ l.length) ∧
    BfsSolver.solve M5 20 0 [] = some [0, 1, 2, 4] ∧
    ([0, 1, 2, 4] : List Nat).length ≠ 2 + 1 := by
  refine ⟨⟨by simp, by simp, ?_, by simp [M5], by simp⟩, rfl, M5_min_three, rfl, by decide⟩
  refine List.chain'_cons.mpr ⟨?_, List.chain'_cons.mpr ⟨?_, List.chain'_singleton 4⟩⟩
  · simp [StrStep, M5]
  · simp [StrStep, M5]

/-- Claim C2 (amended): a non-empty path returned by `BfsSolver.solve` is
itself a string-level solution avoiding `seen`, hence its length is at
least `k + 1` whenever every such solution has at least `k + 1` states —
but it need not have exactly `k + 1` states. -/
theorem bfs_path_at_least_shortest {α : Type} (P : POps α) (fuel : Nat) (p : α)
    (seen : List String) (l : List α)
    (h : BfsSolver.solve P fuel p seen = some l) (hne : l ≠ []) :
    IsStrSolution P p seen l ∧
      ∀ k, (∀ l', IsStrSolution P p seen l' → k + 1 ≤ l'.length) →
        k + 1 ≤ l.length := by
  have hsol := bfs_sound P fuel p seen l h hne
  exact ⟨hsol, fun k hk => hk l hsol⟩

theorem bfs_path_at_least_shortest_witness :
    IsStrSolution M5 0 [] [0, 1, 2, 4] ∧
      ∀ k, (∀ l', IsStrSolution M5 0 [] l' → k + 1 ≤ l'.length) →
        k + 1 ≤ ([0, 1, 2, 4] : List Nat).length :=
  bfs_path_at_least_shortest M5 20 0 [] [0, 1, 2, 4] rfl (by simp)

/-! ## Claim C3: depth-first search finds a solution iff one exists -/

/-- Claim C3: under the canonical-string uniqueness invariant and a sound
`fail_fast`, a terminating `DfsSolver.solve` run returns the empty list
iff no solution path (by actual extension steps, whose non-root states
avoid `seen`) exists. -/
theorem dfs_empty_iff_no_solution {α : Type} (P : POps α)
    (hInj : ∀ a b, P.canon a = P.canon b → a = b)
    (Hff : ∀ a, P.fail_fast a = true → ¬HasSolution P a)
    (fuel : Nat) (p : α) (seen : List String) (r : List α)
    (hterm : DfsSolver.solve P fuel p seen = some r) :
    r = [] ↔ ¬∃ l, DfsSol P p seen l := by
  constructor
  · rintro rfl ⟨l, hl⟩
    exact dfs_complete P hInj Hff fuel p seen hterm l hl
  · intro hno
    by_contra hne
    exact hno ⟨r, dfs_sound P fuel p seen r hterm hne⟩

theorem dfs_empty_iff_no_solution_witness :
    (([0, 1] : List (Fin 2)) = [] ↔ ¬∃ l, DfsSol M2 0 [] l) :=
  dfs_empty_iff_no_solution M2 (by decide) (fun a h => by simp [M2] at h)
    3 0 [] [0, 1] rfl

/-! ## Claim C9: the solved check precedes every filter -/

/-- Claim C9: a solved puzzle makes both solvers return exactly `[p]`,
even when `p`'s canonical string is in `seen` or `p.fail_fast()` holds
(the solved check comes first in both solvers). -/
theorem solved_root_returns_single {α : Type} (P : POps α) (fuel : Nat) (p : α)
    (seen : List String) (hsolved : P.is_solved p = true) (hfuel : 1 ≤ fuel) :
    DfsSolver.solve P fuel p seen = some [p] ∧
      BfsSolver.solve P fuel p seen = some [p] := by
  obtain ⟨f, rfl⟩ : ∃ f, fuel = f + 1 := ⟨fuel - 1, by omega⟩
  constructor
  · simp only [DfsSolver.solve]
    rw [if_pos hsolved]
  · simp only [BfsSolver.solve]
    rw [if_pos hsolved]

theorem solved_root_returns_single_witness :
    DfsSolver.solve M1 1 () ["w"] = some [()] ∧
      BfsSolver.solve M1 1 () ["w"] = some [()] :=
  solved_root_returns_single M1 1 () ["w"] rfl (le_refl 1)

/-! ## ExpressionTreePuzzle lemmas -/

theorem digits_bounds : ∀ i ∈ digits, 1 ≤ i ∧ i ≤ 9 := by decide

theorem digits_ne_zero : ∀ i ∈ digits, ¬i = 0 := by decide

theorem hasKey_of_mem (l : List (String × Int)) (kv : String × Int)
    (h : kv ∈ l) : hasKey l kv.1 = true := by
  simp only [hasKey, List.any_eq_true]
  exact ⟨kv, h, by simp⟩

theorem lookupD_of_mem_nodup :
    ∀ (l : List (String × Int)) (kv : String × Int),
      kv ∈ l → (l.map Prod.fst).Nodup → lookupD l kv.1 = kv.2 := by
  intro l
  induction l with
  | nil => intro kv h; cases h
  | cons a rest ih =>
    obtain ⟨k, v⟩ := a
    intro kv h hk
    simp only [List.map_cons, List.nodup_cons] at hk
    rcases List.mem_cons.mp h with rfl | hmem
    · simp [lookupD]
    · have hne : ¬k = kv.1 := fun he => hk.1 (he ▸ List.mem_map_of_mem Prod.fst hmem)
      simp only [lookupD]
      rw [if_neg hne]
      exact ih kv hmem hk.2

theorem lookupD_updateA_self :
    ∀ (l : List (String × Int)) (k : String) (v : Int),
      lookupD (updateA l k v) k = v := by
  intro l
  induction l with
  | nil => intro k v; simp [updateA, lookupD]
  | cons a rest ih =>
    obtain ⟨a1, a2⟩ := a
    intro k v
    simp only [updateA]
    by_cases h : a1 = k
    · rw [if_pos h]; simp [lookupD]
    · rw [if_neg h]
      simp only [lookupD]
      rw [if_neg h]
      exact ih k v

theorem lookupD_updateA_other :
    ∀ (l : List (String × Int)) (k w : String) (v : Int), w ≠ k →
      lookupD (updateA l k v) w = lookupD l w := by
  intro l
  induction l with
  | nil =>
    intro k w v hw
    simp only [updateA, lookupD]
    rw [if_neg (fun h => hw h.symm)]
  | cons a rest ih =>
    obtain ⟨a1, a2⟩ := a
    intro k w v hw
    simp only [updateA]
    by_cases h : a1 = k
    · rw [if_pos h]
      simp only [lookupD]
      rw [if_neg (fun hkw => hw hkw.symm),
        if_neg (show ¬a1 = w from fun h2 => hw (h2.symm.trans h))]
    · rw [if_neg h]
      simp only [lookupD]
      by_cases h2 : a1 = w
      · rw [if_pos h2, if_pos h2]
      · rw [if_neg h2, if_neg h2]
        exact ih k w v hw

theorem keys_updateA :
    ∀ (l : List (String × Int)) (k : String) (v : Int), hasKey l k = true →
      (updateA l k v).map Prod.fst = l.map Prod.fst := by
  intro l
  induction l with
  | nil => intro k v h; simp [hasKey] at h
  | cons a rest ih =>
    obtain ⟨a1, a2⟩ := a
    intro k v h
    simp only [updateA]
    by_cases he : a1 = k
    · rw [if_pos he]
      simp [he]
    · rw [if_neg he]
      simp only [List.map_cons]
      have hrest : hasKey rest k = true := by
        simp only [hasKey, List.any_cons, Bool.or_eq_true, beq_iff_eq] at h
        rcases h with h1 | h1
        · exact absurd h1 he
        · exact h1
      rw [ih k v hrest]

theorem countP_updateA :
    ∀ (l : List (String × Int)) (v : String) (i : Int), ¬i = 0 →
      (l.map Prod.fst).Nodup → (v, 0) ∈ l →
      (updateA l v i).countP (fun kv => kv.2 == 0) + 1 =
        l.countP (fun kv => kv.2 == 0) := by
  intro l
  induction l with
  | nil => intro v i _ _ h; cases h
  | cons a rest ih =>
    obtain ⟨a1, a2⟩ := a
    intro v i hi hk hmem
    simp only [List.map_cons, List.nodup_cons] at hk
    simp only [updateA]
    rcases List.mem_cons.mp hmem with heq | hmem'
    · injection heq with h1 h2
      subst h1
      subst h2
      rw [if_pos rfl]
      simp only [List.countP_cons]
      have hi' : (i == 0) = false := beq_eq_false_iff_ne.mpr hi
      simp [hi']
    · have hvk : v ∈ rest.map Prod.fst := List.mem_map_of_mem Prod.fst hmem'
      have hne : ¬a1 = v := fun he => hk.1 (he ▸ hvk)
      rw [if_neg hne]
      simp only [List.countP_cons]
      have hih := ih v i hi hk.2 hmem'
      omega

/-- Decomposition of membership in `extensions`. -/
theorem mem_extensions_decomp (p c : ExpressionTreePuzzle)
    (hc : c ∈ p.extensions) :
    ∃ kv ∈ p.vars, kv.2 = 0 ∧ ∃ i ∈ digits,
      c = { p with vars := updateA p.vars kv.1 i } := by
  simp only [ExpressionTreePuzzle.extensions] at hc
  obtain ⟨kv, hkv, hmem⟩ := List.mem_flatMap.mp hc
  by_cases h0 : kv.2 = 0
  · rw [if_pos h0] at hmem
    obtain ⟨i, hi, rfl⟩ := List.mem_map.mp hmem
    exact ⟨kv, hkv, h0, i, hi, rfl⟩
  · rw [if_neg h0] at hmem
    exact absurd hmem (List.not_mem_nil c)

theorem length_flatMap_if (l : List (String × Int))
    (g : (String × Int) → Int → ExpressionTreePuzzle) :
    (l.flatMap (fun kv => if kv.2 = 0 then digits.map (g kv) else [])).length =
      9 * l.countP (fun kv => kv.2 == 0) := by
  induction l with
  | nil => rfl
  | cons kv rest ih =>
    simp only [List.flatMap_cons, List.length_append, List.countP_cons]
    by_cases h0 : kv.2 = 0
    · rw [if_pos h0, List.length_map]
      have hb : (kv.2 == 0) = true := beq_iff_eq.mpr h0
      rw [hb, ih]
      simp only [digits, List.length_cons, List.length_nil, eq_self_iff_true, if_true]
      ring
    · rw [if_neg h0]
      have hb : (kv.2 == 0) = false := beq_eq_false_iff_ne.mpr h0
      rw [hb, ih]
      simp

theorem length_extensions (p : ExpressionTreePuzzle) :
    p.extensions.length = 9 * p.zeroCount :=
  length_flatMap_if p.vars (fun kv i => { p with vars := updateA p.vars kv.1 i })

theorem flatMap_nil_of_no_zero (l : List (String × Int))
    (g : (String × Int) → Int → ExpressionTreePuzzle)
    (h : ∀ kv ∈ l, ¬kv.2 = 0) :
    (l.flatMap (fun kv => if kv.2 = 0 then digits.map (g kv) else [])) = [] := by
  induction l with
  | nil => rfl
  | cons kv rest ih =>
    simp only [List.flatMap_cons]
    rw [if_neg (h kv (List.mem_cons_self _ _)), List.nil_append]
    exact ih (fun kv' h' => h kv' (List.mem_cons_of_mem _ h'))

theorem extensions_nil_of_zeroCount (p : ExpressionTreePuzzle)
    (hz : p.zeroCount = 0) : p.extensions = [] := by
  refine flatMap_nil_of_no_zero p.vars
    (fun kv i => { p with vars := updateA p.vars kv.1 i }) ?_
  intro kv hkv h0
  have hb : (kv.2 == 0) = true := beq_iff_eq.mpr h0
  exact absurd hb (by simpa using List.countP_eq_zero.mp hz kv hkv)

/-- The target (and the tree) are inherited by every extension. -/
theorem target_of_mem_extensions (p c : ExpressionTreePuzzle)
    (hc : c ∈ p.extensions) : c.target = p.target := by
  obtain ⟨kv, -, -, i, -, rfl⟩ := mem_extensions_decomp p c hc
  rfl

/-- A child has one fewer unassigned variable, and keeps the key order. -/
theorem zeroCount_of_mem_extensions (p c : ExpressionTreePuzzle)
    (hk : (p.vars.map Prod.fst).Nodup) (hc : c ∈ p.extensions) :
    c.zeroCount + 1 = p.zeroCount ∧ (c.vars.map Prod.fst).Nodup := by
  obtain ⟨kv, hkv, h0, i, hi, rfl⟩ := mem_extensions_decomp p c hc
  have hv0 : (kv.1, 0) ∈ p.vars := by
    have hkv0 : (kv.1, (0 : Int)) = kv := by rw [← h0]
    rw [hkv0]
    exact hkv
  constructor
  · exact countP_updateA p.vars kv.1 i (digits_ne_zero i hi) hk hv0
  · have hkeys := keys_updateA p.vars kv.1 i (hasKey_of_mem _ _ hkv)
    rw [show ({ p with vars := updateA p.vars kv.1 i } :
      ExpressionTreePuzzle).vars = updateA p.vars kv.1 i from rfl, hkeys]
    exact hk

/-! ## Claim C4: the shape of `extensions` -/

/-- Claim C4: with `k` currently-unassigned variables (and the dictionary
invariant of unique keys), `extensions` returns exactly `9k` children;
each child re-assigns exactly one previously-zero variable to a digit
1..9, leaving the target, the tree, the other variables and the key order
unchanged; and with `k = 0` the result is empty regardless of
solvedness. -/
theorem extensions_children_spec (p : ExpressionTreePuzzle)
    (hk : (p.vars.map Prod.fst).Nodup) : ExtSpec p := by
  refine ⟨length_extensions p, ?_, extensions_nil_of_zeroCount p⟩
  intro c hc
  obtain ⟨kv, hkv, h0, i, hi, rfl⟩ := mem_extensions_decomp p c hc
  refine ⟨rfl, rfl, kv.1, i, (digits_bounds i hi).1, (digits_bounds i hi).2,
    hasKey_of_mem _ _ hkv, ?_, rfl, lookupD_updateA_self _ _ _, ?_, ?_⟩
  · rw [lookupD_of_mem_nodup p.vars kv hkv hk]
    exact h0
  · intro w hw
    exact lookupD_updateA_other p.vars kv.1 w i hw
  · exact keys_updateA p.vars kv.1 i (hasKey_of_mem _ _ hkv)

theorem extensions_children_spec_witness : ExtSpec pW4 :=
  extensions_children_spec pW4 (by decide)

/-! ## Claim C5: `fail_fast` -/

/-- Claim C5: `fail_fast()` returns true exactly when the target is
non-positive or the expression's value under the current (possibly
partial) assignment exceeds the target. -/
theorem fail_fast_iff (p : ExpressionTreePuzzle) :
    p.fail_fast = true ↔ (p.target ≤ 0 ∨ p.tree.eval p.vars > p.target) := by
  simp only [ExpressionTreePuzzle.fail_fast]
  split_ifs with h1 h2
  · simp [h1]
  · simp [h2]
  · simp [h1, h2]

/-! ## Claim C6: non-positive targets -/

/-- The depth-first loop skips every extension whose `fail_fast` holds. -/
theorem dfsLp_all_ff {α : Type} (P : POps α)
    (rec : α → List String → Option (List α)) :
    ∀ exts seen, (∀ e ∈ exts, P.fail_fast e = true) →
      dfsLp P rec exts seen = some [] := by
  intro exts
  induction exts with
  | nil => intro seen _; rfl
  | cons e rest ih =>
    intro seen hff
    simp only [dfsLp]
    rw [if_pos (Or.inr (hff e (List.mem_cons_self _ _)))]
    exact ih _ (fun e' he' => hff e' (List.mem_cons_of_mem _ he'))

/-- Counterexample to claim C6 as stated: the puzzle `0 = 0` (literal
expression, target `0 ≤ 0`) has `fail_fast()` true but is solved, so both
solvers return the one-element path `[p]`, not the empty path. -/
theorem nonpositive_target_counterexample :
    pXc6.target ≤ 0 ∧ pXc6.fail_fast = true ∧ pXc6.is_solved = true ∧
    DfsSolver.solve opsE 5 pXc6 [] = some [pXc6] ∧
    BfsSolver.solve opsE 5 pXc6 [] = some [pXc6] ∧
    some [pXc6] ≠ some ([] : List ExpressionTreePuzzle) :=
  ⟨by decide, rfl, rfl, rfl, rfl, by simp⟩

/-- Claim C6 (amended): with a non-positive target `fail_fast()` is true
at the root regardless of the expression; and if the root is moreover not
solved, both solvers return the empty path (the breadth-first solver
discards the root without generating children; the depth-first solver
skips every generated child through its fail-fast filter). -/
theorem nonpositive_target_amended (p : ExpressionTreePuzzle)
    (seen : List String) (fuel : Nat) (htarget : p.target ≤ 0) :
    p.fail_fast = true ∧
      (p.is_solved = false → 2 ≤ fuel →
        DfsSolver.solve opsE fuel p seen = some [] ∧
        BfsSolver.solve opsE fuel p seen = some []) := by
  have hffp : p.fail_fast = true := by
    simp only [ExpressionTreePuzzle.fail_fast]
    rw [if_pos htarget]
  refine ⟨hffp, ?_⟩
  intro hs hfuel
  obtain ⟨f, rfl⟩ : ∃ f, fuel = f + 1 + 1 := ⟨fuel - 2, by omega⟩
  have hnotsolved : ¬opsE.is_solved p = true := by
    show ¬p.is_solved = true
    rw [hs]
    simp
  have hff : ∀ e ∈ opsE.extensions p, opsE.fail_fast e = true := by
    intro e he
    have ht : e.target = p.target := target_of_mem_extensions p e he
    show e.fail_fast = true
    simp only [ExpressionTreePuzzle.fail_fast]
    rw [if_pos (by rw [ht]; exact htarget)]
  constructor
  · simp only [DfsSolver.solve]
    rw [if_neg hnotsolved, dfsLp_all_ff opsE _ _ _ hff]
  · simp only [BfsSolver.solve]
    rw [if_neg hnotsolved]
    have hskip : opsE.canon p ∈ seen ∨ opsE.fail_fast p = true := Or.inr hffp
    simp only [bfsLoop]
    rw [if_pos hskip]

theorem nonpositive_target_amended_witness :
    DfsSolver.solve opsE 2 pYc6 [] = some [] ∧
      BfsSolver.solve opsE 2 pYc6 [] = some [] :=
  (nonpositive_target_amended pYc6 [] 2 (by decide)).2 rfl (le_refl 2)

/-! ## Claim C8: termination of the depth-first search on
ExpressionTreePuzzle -/

/-- The depth-first loop terminates when every recursive call does. -/
theorem dfsLp_total {α : Type} (P : POps α)
    (rec : α → List String → Option (List α)) :
    ∀ exts, (∀ e ∈ exts, ∀ s, ∃ r, rec e s = some r) →
      ∀ seen, ∃ r, dfsLp P rec exts seen = some r := by
  intro exts
  induction exts with
  | nil => intro _ seen; exact ⟨[], rfl⟩
  | cons e rest ih =>
    intro hall seen
    simp only [dfsLp]
    by_cases hskip : P.canon e ∈ seen ∨ P.fail_fast e = true
    · rw [if_pos hskip]
      exact ih (fun e' he' => hall e' (List.mem_cons_of_mem _ he')) _
    · rw [if_neg hskip]
      obtain ⟨r, hr⟩ := hall e (List.mem_cons_self _ _) seen
      rw [hr]
      cases r with
      | nil => exact ih (fun e' he' => hall e' (List.mem_cons_of_mem _ he')) _
      | cons y ys => exact ⟨y :: ys, rfl⟩

/-- Claim C8 (helper): by induction on the fuel, `DfsSolver.solve`
terminates on every `ExpressionTreePuzzle` whose unassigned-variable
count is below the fuel — each extension assigns one previously
unassigned variable, strictly decreasing that finite count. -/
theorem dfs_total_etp :
    ∀ (fuel : Nat) (p : ExpressionTreePuzzle) (seen : List String),
      (p.vars.map Prod.fst).Nodup → p.zeroCount < fuel →
      ∃ r, DfsSolver.solve opsE fuel p seen = some r := by
  intro fuel
  induction fuel with
  | zero => intro p seen _ h; omega
  | succ f ih =>
    intro p seen hk hz
    by_cases hsolved : opsE.is_solved p = true
    · exact ⟨[p], by simp only [DfsSolver.solve]; rw [if_pos hsolved]⟩
    · have hall : ∀ e ∈ opsE.extensions p, ∀ s,
          ∃ r, DfsSolver.solve opsE f e s = some r := by
        intro e he s
        obtain ⟨hcount, hnodup⟩ := zeroCount_of_mem_extensions p e hk he
        exact ih e s hnodup (by omega)
      obtain ⟨r, hr⟩ := dfsLp_total opsE (DfsSolver.solve opsE f)
        (opsE.extensions p) hall (opsE.canon p :: seen)
      cases r with
      | nil => exact ⟨[], by simp only [DfsSolver.solve]; rw [if_neg hsolved, hr]⟩
      | cons y ys =>
        exact ⟨p :: y :: ys, by simp only [DfsSolver.solve]; rw [if_neg hsolved, hr]⟩

/-- Claim C8: `DfsSolver.solve` terminates on every
`ExpressionTreePuzzle` (with the unique-keys dictionary invariant): any
fuel exceeding the number of unassigned variables suffices, because each
extension strictly decreases that count. -/
theorem dfs_terminates_on_etp (p : ExpressionTreePuzzle) (seen : List String)
    (fuel : Nat) (hk : (p.vars.map Prod.fst).Nodup)
    (hfuel : p.zeroCount < fuel) :
    ∃ r, DfsSolver.solve opsE fuel p seen = some r :=
  dfs_total_etp fuel p seen hk hfuel

theorem dfs_terminates_on_etp_witness :
    ∃ r, DfsSolver.solve opsE 3 (mkETP (ExprTree.varn "a") 4) [] = some r :=
  dfs_terminates_on_etp (mkETP (ExprTree.varn "a") 4) [] 3 (by decide) (by decide)
